import Mathlib

/-!
Verification of the route-label helper module (`src/helper.js`).

JavaScript strings are modelled as lists of characters (`Str`), the route
table (a JS object used as a map) as an association list, and the single
regular expression used by path validation as the deterministic automaton
`runMatch` together with its declarative language `MatchesPathRegex`.
Errors thrown by `register` are modelled by an explicit error component in
the result, paired with the table as it stands when the function returns.
-/

namespace RouteLabel

/-- JS strings, modelled as lists of characters. -/
abbrev Str := List Char

/-- Character list of a Lean string literal, for concrete test inputs. -/
def strOf (s : String) : Str := s.data

/-- Dynamically typed JS values, as far as the helper inspects them:
`isValidPathForNamedRoute` only distinguishes strings from everything else
via a typeof test. -/
inductive JsValue where
  | str : Str → JsValue
  | num : Int → JsValue
  | bool : Bool → JsValue
  | undefined : JsValue
  | null : JsValue
deriving DecidableEq

/-- Membership in the character class `[-_.a-zA-Z0-9]` of the validation
regex in `isValidPathForNamedRoute`. -/
def isWordChar (c : Char) : Bool :=
  c.isAlpha || c.isDigit || c = '-' || c = '_' || c = '.'

/-- States of the deterministic automaton for the anchored regex
`(\/:?[-_.a-zA-Z0-9]+)+` used by `isValidPathForNamedRoute`:
`start` before any input, `afterSlash` right after a group's slash,
`afterColon` right after an optional parameter colon, `inWord` after at
least one word character of the current group. -/
inductive MState where
  | start
  | afterSlash
  | afterColon
  | inWord
deriving DecidableEq

/-- Transition function of the automaton. -/
def mstep (s : MState) (c : Char) : Option MState :=
  match s with
  | MState.start => if c = '/' then some MState.afterSlash else none
  | MState.afterSlash =>
      if c = ':' then some MState.afterColon
      else if isWordChar c then some MState.inWord
      else none
  | MState.afterColon => if isWordChar c then some MState.inWord else none
  | MState.inWord =>
      if c = '/' then some MState.afterSlash
      else if isWordChar c then some MState.inWord
      else none

/-- Accepting states of the automaton: a path may only end inside the word
part of a group. -/
def maccept : MState → Bool
  | MState.inWord => true
  | _ => false

/-- Run the automaton over the remaining characters. -/
def runMatch : MState → Str → Bool
  | s, [] => maccept s
  | s, c :: rest =>
    match mstep s c with
    | some s2 => runMatch s2 rest
    | none => false

/-- Test of the anchored regex `^(\/:?[-_.a-zA-Z0-9]+)+$` from
`isValidPathForNamedRoute`, via the automaton. -/
def matchPath (cs : Str) : Bool := runMatch MState.start cs

/-- Source `isValidPathForNamedRoute`, restricted to its string branch:
true for the root path, otherwise the regex test. -/
def isValidPathForNamedRouteStr (path : Str) : Bool :=
  if path = strOf "/" then true else matchPath path

/-- Source `isValidPathForNamedRoute` on an arbitrary JS value:
non-strings fail the typeof guard and give false. -/
def isValidPathForNamedRoute (path : JsValue) : Bool :=
  match path with
  | JsValue.str s => isValidPathForNamedRouteStr s
  | _ => false

/-- Token produced from one slice of a pattern. The source leaves `input`
absent for non-parameter slices; absent and false are interchangeable for
every reader, so it is modelled as a defaulting boolean. -/
structure Token where
  text : Str
  input : Bool
deriving DecidableEq

/-- Source `toToken`: strip a leading colon and mark the token as an input
when one is present, otherwise keep the slice verbatim. -/
def toToken (item : Str) : Token :=
  match item with
  | c :: rest =>
    if c = ':' then { text := rest, input := true }
    else { text := c :: rest, input := false }
  | [] => { text := [], input := false }

/-- JS `Array.prototype.join(sep)` on a list of strings. -/
def joinStr (sep : Str) : List Str → Str
  | [] => []
  | [x] => x
  | x :: y :: rest => x ++ sep ++ joinStr sep (y :: rest)

/-- JS `String.prototype.split('/')`: cut at every slash, keeping empty
pieces, so the result is always nonempty. -/
def splitSlash : Str → List Str
  | [] => [[]]
  | c :: rest =>
    if c = '/' then [] :: splitSlash rest
    else
      match splitSlash rest with
      | [] => [[c]]
      | s :: ss => (c :: s) :: ss

/-- Source `tokensToString`: render each token, restoring the colon of
input tokens, and join with slashes. -/
def tokensToString (tokens : List Token) : Str :=
  joinStr (strOf "/")
    (tokens.map fun token => if token.input then ':' :: token.text else token.text)

/-- Source `buildPath`: collect the fragments different from "/" in order,
fall back to the root path when none remain, and concatenate. -/
def buildPath (pathHierarchy : List Str) : Str :=
  let slashIgnored := pathHierarchy.foldl
    (fun acc path => if path ≠ strOf "/" then acc ++ [path] else acc) []
  let cleanPathHierarchy := if slashIgnored.length = 0 then [strOf "/"] else slashIgnored
  cleanPathHierarchy.flatten

/-- One route definition stored in the table. -/
structure RouteDef where
  pattern : Str
  tokens : List Token
deriving DecidableEq

/-- The route table: a JS object keyed by dotted route names, modelled as
an association list. -/
abbrev RouteTable := List (Str × RouteDef)

/-- JS property read `routeTable[name]`. -/
def lookupRoute : RouteTable → Str → Option RouteDef
  | [], _ => none
  | (k, v) :: rest, name => if k = name then some v else lookupRoute rest name

/-- JS property write `routeTable[name] = value`: replace the binding when
the key is present, append it otherwise. -/
def tableSet : RouteTable → Str → RouteDef → RouteTable
  | [], name, value => [(name, value)]
  | (k, v) :: rest, name, value =>
    if k = name then (name, value) :: rest
    else (k, v) :: tableSet rest name value

/-- The two errors `register` can throw. -/
inductive RegisterError where
  | duplicateRouteName : Str → RegisterError
  | malformedPattern : Str → RegisterError
deriving DecidableEq

/-- The truthy-and-different test guarding the duplicate-name throw:
`routeTable[name] && pattern !== routeTable[name].pattern`. -/
def conflictsWith (existing : Option RouteDef) (pattern : Str) : Bool :=
  match existing with
  | some rd => decide (pattern ≠ rd.pattern)
  | none => false

/-- Source `register`. The result pairs the thrown error, if any, with the
table as the function leaves it; both throws happen before the single
write. -/
def register (routeTable : RouteTable) (nameHierarchy pathHierarchy : List Str) :
    Option RegisterError × RouteTable :=
  let name := joinStr (strOf ".") nameHierarchy
  let pattern := buildPath pathHierarchy
  if conflictsWith (lookupRoute routeTable name) pattern then
    (some (RegisterError.duplicateRouteName name), routeTable)
  else if ! isValidPathForNamedRouteStr pattern then
    (some (RegisterError.malformedPattern pattern), routeTable)
  else
    (none, tableSet routeTable name
      { pattern := pattern, tokens := (splitSlash pattern).map toToken })

/-- Modelled from the spec: the PUSH and POP operation constants live in
`constants.js`, which is not among the available sources; the spec
describes `operation` as an enum of PUSH and POP. -/
inductive Operation where
  | PUSH
  | POP
deriving DecidableEq

/-- A navigation event as far as `isTerminalRoute` reads it. -/
structure Event where
  operation : Operation
  name : Str
deriving DecidableEq

/-- Source `isTerminalRoute`. -/
def isTerminalRoute (previousEvent : Option Event) (event : Event) : Bool :=
  match previousEvent with
  | none => false
  | some prev =>
    if prev.operation = Operation.PUSH ∧ event.operation = Operation.POP then
      decide (prev.name = event.name)
    else
      false

/-- Arbitrarily nested JS arrays over leaf values of type alpha. -/
inductive Nested (α : Type) where
  | leaf : α → Nested α
  | arr : List (Nested α) → Nested α

/-- Source `flattenDeep`: push non-array items, splice in the recursive
flattening of array items. -/
def flattenDeep {α : Type} : List (Nested α) → List α
  | [] => []
  | Nested.leaf x :: rest => x :: flattenDeep rest
  | Nested.arr xs :: rest => flattenDeep xs ++ flattenDeep rest

/-- Declarative depth-first, left-to-right leaf sequence of one nested
value, used as the specification `flattenDeep` is compared against. -/
def leaves {α : Type} : Nested α → List α
  | Nested.leaf x => [x]
  | Nested.arr [] => []
  | Nested.arr (y :: ys) => leaves y ++ leaves (Nested.arr ys)

/-- A nonempty run of word characters. -/
def IsWordSeg (w : Str) : Prop := w ≠ [] ∧ ∀ c ∈ w, isWordChar c = true

/-- One group of the validation regex: a slash, an optional colon, then a
nonempty run of word characters. -/
def IsGroup (g : Str) : Prop :=
  ∃ w, IsWordSeg w ∧ (g = '/' :: w ∨ g = '/' :: ':' :: w)

/-- The language of the anchored regex `^(\/:?[-_.a-zA-Z0-9]+)+$`: one or
more groups in sequence. -/
inductive MatchesPathRegex : Str → Prop where
  | single (g : Str) : IsGroup g → MatchesPathRegex g
  | append (g rest : Str) : IsGroup g → MatchesPathRegex rest →
      MatchesPathRegex (g ++ rest)

/-! ### Lemmas about `buildPath` -/

lemma buildPath_foldl (ph acc : List Str) :
    ph.foldl (fun acc path => if path ≠ strOf "/" then acc ++ [path] else acc) acc =
      acc ++ ph.filter (fun f => decide (f ≠ strOf "/")) := by
  induction ph generalizing acc with
  | nil => simp
  | cons x xs ih =>
    rw [List.foldl_cons, List.filter_cons]
    by_cases hx : x = strOf "/"
    · rw [if_neg (not_not_intro hx), if_neg (by simp [hx]), ih]
    · rw [if_pos hx, if_pos (by simp [hx]), ih]
      simp

lemma buildPath_eq (ph : List Str) :
    buildPath ph =
      (if ph.filter (fun f => decide (f ≠ strOf "/")) = [] then strOf "/"
       else (ph.filter (fun f => decide (f ≠ strOf "/"))).flatten) := by
  simp only [buildPath]
  rw [buildPath_foldl ph [], List.nil_append]
  by_cases h : ph.filter (fun f => decide (f ≠ strOf "/")) = []
  · rw [if_pos (by rw [h]; rfl), if_pos h]
    simp
  · rw [if_neg fun hl => h (List.length_eq_zero.mp hl), if_neg h]

/-! ### Lemmas about the route table -/

lemma lookupRoute_tableSet_self (t : RouteTable) (name : Str) (v : RouteDef) :
    lookupRoute (tableSet t name v) name = some v := by
  induction t with
  | nil => simp [tableSet, lookupRoute]
  | cons kv rest ih =>
    obtain ⟨k, w⟩ := kv
    by_cases hk : k = name
    · simp [tableSet, hk, lookupRoute]
    · simp [tableSet, hk, lookupRoute, ih]

lemma lookupRoute_tableSet_ne (t : RouteTable) (name k : Str) (v : RouteDef)
    (hk : k ≠ name) :
    lookupRoute (tableSet t name v) k = lookupRoute t k := by
  induction t with
  | nil => simp [tableSet, lookupRoute, Ne.symm hk]
  | cons kv rest ih =>
    obtain ⟨k2, w⟩ := kv
    by_cases hk2 : k2 = name
    · subst hk2
      simp [tableSet, lookupRoute, Ne.symm hk]
    · simp [tableSet, hk2, lookupRoute, ih]

lemma tableSet_tableSet_same (t : RouteTable) (name : Str) (v : RouteDef) :
    tableSet (tableSet t name v) name v = tableSet t name v := by
  induction t with
  | nil => simp [tableSet]
  | cons kv rest ih =>
    obtain ⟨k, w⟩ := kv
    by_cases hk : k = name
    · simp [tableSet, hk]
    · simp [tableSet, hk, ih]

lemma conflictsWith_iff (existing : Option RouteDef) (pattern : Str) :
    conflictsWith existing pattern = true ↔
      ∃ rd, existing = some rd ∧ rd.pattern ≠ pattern := by
  cases existing with
  | none => simp [conflictsWith]
  | some rd => simp [conflictsWith, ne_comm]

lemma register_error_table_aux (t t2 : RouteTable) (nh ph : List Str)
    (e : RegisterError) (h : register t nh ph = (some e, t2)) : t2 = t := by
  simp only [register] at h
  split at h
  · exact (Prod.mk.injEq _ _ _ _ ▸ h).2.symm
  · split at h
    · exact (Prod.mk.injEq _ _ _ _ ▸ h).2.symm
    · exact absurd (Prod.mk.injEq _ _ _ _ ▸ h).1 (by simp)

/-! ### Claim theorems about `register` -/

/-- C1: when `register routeTable nameHierarchy pathHierarchy` succeeds, it
sets the entry at `name = nameHierarchy.join('.')` to the record holding
`pattern = buildPath pathHierarchy` and
`tokens = pattern.split('/').map(toToken)`, and every other entry of the
table is untouched. -/
theorem register_success_sets_entry (t t2 : RouteTable) (nh ph : List Str) (k : Str)
    (h : register t nh ph = (none, t2))
    (hk : k ≠ joinStr (strOf ".") nh) :
    lookupRoute t2 (joinStr (strOf ".") nh) =
      some { pattern := buildPath ph
             tokens := (splitSlash (buildPath ph)).map toToken } ∧
    lookupRoute t2 k = lookupRoute t k := by
  simp only [register] at h
  split at h
  · exact absurd (Prod.mk.injEq _ _ _ _ ▸ h).1 (by simp)
  · split at h
    · exact absurd (Prod.mk.injEq _ _ _ _ ▸ h).1 (by simp)
    · have ht2 := (Prod.mk.injEq _ _ _ _ ▸ h).2
      subst ht2
      exact ⟨lookupRoute_tableSet_self t _ _, lookupRoute_tableSet_ne t _ k _ hk⟩

/-- C1 witness: registering the route b under the name a.b into the empty
table produces exactly the expected entry and leaves the absent key c
absent. -/
theorem register_success_sets_entry_witness :
    lookupRoute
        [(strOf "a.b",
          { pattern := strOf "/a/b"
            tokens := [{ text := strOf "", input := false },
                       { text := strOf "a", input := false },
                       { text := strOf "b", input := false }] })]
        (strOf "a.b") =
      some { pattern := buildPath [strOf "/a", strOf "/b"]
             tokens := (splitSlash (buildPath [strOf "/a", strOf "/b"])).map toToken } ∧
    lookupRoute
        [(strOf "a.b",
          { pattern := strOf "/a/b"
            tokens := [{ text := strOf "", input := false },
                       { text := strOf "a", input := false },
                       { text := strOf "b", input := false }] })]
        (strOf "c") =
      lookupRoute [] (strOf "c") :=
  register_success_sets_entry [] _ [strOf "a", strOf "b"] [strOf "/a", strOf "/b"]
    (strOf "c") (by decide) (by decide)

/-- C2: `register` fails with DuplicateRouteName exactly when the table
already binds the computed name to a record whose pattern differs from the
newly computed one, and re-registering after a successful registration of
the same hierarchies succeeds again and leaves the table unchanged. -/
theorem register_duplicate_iff_idempotent (t t1 : RouteTable) (nh ph : List Str) :
    ((∃ n, (register t nh ph).fst = some (RegisterError.duplicateRouteName n)) ↔
      ∃ rd, lookupRoute t (joinStr (strOf ".") nh) = some rd ∧
        rd.pattern ≠ buildPath ph) ∧
    (register t nh ph = (none, t1) → register t1 nh ph = (none, t1)) := by
  constructor
  · rw [← conflictsWith_iff (lookupRoute t (joinStr (strOf ".") nh)) (buildPath ph)]
    simp only [register]
    split
    · next hc => simp only [hc, iff_true]; exact ⟨_, rfl⟩
    · next hc =>
      split
      · simp only [Bool.not_eq_true] at hc
        simp [hc]
      · simp only [Bool.not_eq_true] at hc
        simp [hc]
  · intro h
    simp only [register] at h
    split at h
    · exact absurd (Prod.mk.injEq _ _ _ _ ▸ h).1 (by simp)
    · split at h
      · exact absurd (Prod.mk.injEq _ _ _ _ ▸ h).1 (by simp)
      · next hval =>
        have ht1 := (Prod.mk.injEq _ _ _ _ ▸ h).2
        simp only [Bool.not_eq_true, Bool.not_eq_false'] at hval
        subst ht1
        have hl := lookupRoute_tableSet_self t (joinStr (strOf ".") nh)
          { pattern := buildPath ph, tokens := (splitSlash (buildPath ph)).map toToken }
        simp only [register]
        rw [if_neg (by simp [hl, conflictsWith]), if_neg (by simp [hval]),
          tableSet_tableSet_same]

/-- C2 witness: a concrete instantiation at the empty table, where the
first registration of a.b succeeds and the second is the identical
rewrite. -/
theorem register_duplicate_iff_idempotent_witness :
    ((∃ n, (register [] [strOf "a", strOf "b"] [strOf "/a", strOf "/b"]).fst =
        some (RegisterError.duplicateRouteName n)) ↔
      ∃ rd, lookupRoute [] (joinStr (strOf ".") [strOf "a", strOf "b"]) = some rd ∧
        rd.pattern ≠ buildPath [strOf "/a", strOf "/b"]) ∧
    (register [] [strOf "a", strOf "b"] [strOf "/a", strOf "/b"] =
        (none,
          [(strOf "a.b",
            { pattern := strOf "/a/b"
              tokens := [{ text := strOf "", input := false },
                         { text := strOf "a", input := false },
                         { text := strOf "b", input := false }] })]) →
      register
          [(strOf "a.b",
            { pattern := strOf "/a/b"
              tokens := [{ text := strOf "", input := false },
                         { text := strOf "a", input := false },
                         { text := strOf "b", input := false }] })]
          [strOf "a", strOf "b"] [strOf "/a", strOf "/b"] =
        (none,
          [(strOf "a.b",
            { pattern := strOf "/a/b"
              tokens := [{ text := strOf "", input := false },
                         { text := strOf "a", input := false },
                         { text := strOf "b", input := false }] })])) :=
  register_duplicate_iff_idempotent [] _ [strOf "a", strOf "b"] [strOf "/a", strOf "/b"]

/-- C3 counterexample: with the name a already bound to the pattern /x,
registering the malformed hierarchy /foo/: computes an invalid pattern,
yet `register` raises DuplicateRouteName, not MalformedPattern, because
the duplicate check runs first. -/
theorem register_malformed_counterexample :
    isValidPathForNamedRouteStr (buildPath [strOf "/foo/:"]) = false ∧
    (register [(strOf "a", { pattern := strOf "/x", tokens := [] })]
        [strOf "a"] [strOf "/foo/:"]).fst =
      some (RegisterError.duplicateRouteName (strOf "a")) ∧
    (register [(strOf "a", { pattern := strOf "/x", tokens := [] })]
        [strOf "a"] [strOf "/foo/:"]).fst ≠
      some (RegisterError.malformedPattern (buildPath [strOf "/foo/:"])) := by
  decide

/-- C3 as amended: when the computed pattern is invalid and the duplicate
check does not fire (every stored record under the computed name carries
the same pattern), `register` fails with MalformedPattern and the table is
unchanged. -/
theorem register_malformed (t : RouteTable) (nh ph : List Str)
    (hval : isValidPathForNamedRouteStr (buildPath ph) = false)
    (hdup : ∀ rd, lookupRoute t (joinStr (strOf ".") nh) = some rd →
      rd.pattern = buildPath ph) :
    register t nh ph =
      (some (RegisterError.malformedPattern (buildPath ph)), t) := by
  have hnc : conflictsWith (lookupRoute t (joinStr (strOf ".") nh))
      (buildPath ph) = false := by
    cases hl : lookupRoute t (joinStr (strOf ".") nh) with
    | none => simp [conflictsWith]
    | some rd => simp [conflictsWith, (hdup rd hl).symm]
  simp only [register, hnc, Bool.false_eq_true, if_false, hval, Bool.not_false, if_true]

/-- C3 witness: registering /foo/: under the fresh name a fails with
MalformedPattern and leaves the empty table empty. -/
theorem register_malformed_witness :
    register [] [strOf "a"] [strOf "/foo/:"] =
      (some (RegisterError.malformedPattern (buildPath [strOf "/foo/:"])), []) :=
  register_malformed [] [strOf "a"] [strOf "/foo/:"] (by decide)
    (fun rd h => by cases h)

/-- C4: whenever `register` raises either error, both checks having run
before the single write, the route table is left unchanged. -/
theorem register_error_leaves_table (t : RouteTable) (nh ph : List Str)
    (e : RegisterError) (h : (register t nh ph).fst = some e) :
    (register t nh ph).snd = t := by
  rcases hr : register t nh ph with ⟨err, t2⟩
  rw [hr] at h
  simp only at h
  subst h
  simpa using register_error_table_aux t t2 nh ph e hr

/-- C4 witness: a failing registration against a one-entry table returns
that table intact. -/
theorem register_error_leaves_table_witness :
    (register [(strOf "b", { pattern := strOf "/b", tokens := [] })]
        [strOf "a"] [strOf "/foo/:"]).snd =
      [(strOf "b", { pattern := strOf "/b", tokens := [] })] :=
  register_error_leaves_table
    [(strOf "b", { pattern := strOf "/b", tokens := [] })]
    [strOf "a"] [strOf "/foo/:"]
    (RegisterError.malformedPattern (strOf "/foo/:")) (by decide)

/-- C5: `buildPath` drops the fragments equal to "/", concatenates the
rest in order without inserting separators, falls back to "/" when
nothing remains, and in particular satisfies the four documented
examples. -/
theorem buildPath_spec (ph : List Str) :
    buildPath ph =
      (if ph.filter (fun f => decide (f ≠ strOf "/")) = [] then strOf "/"
       else (ph.filter (fun f => decide (f ≠ strOf "/"))).flatten) ∧
    buildPath [strOf "/"] = strOf "/" ∧
    buildPath [strOf "/foo", strOf "/:slug"] = strOf "/foo/:slug" ∧
    buildPath [strOf "/foo", strOf "/bar/:slug", strOf "/wow"] =
      strOf "/foo/bar/:slug/wow" ∧
    buildPath [strOf "/foo", strOf "/", strOf "/deep-foo"] = strOf "/foo/deep-foo" :=
  ⟨buildPath_eq ph, by decide, by decide, by decide, by decide⟩

/-- C9: `isTerminalRoute` answers true exactly for a defined previous PUSH
event and a current POP event that carry the same name, and is a total
boolean test on every other combination. -/
theorem isTerminalRoute_iff (p : Option Event) (e : Event) :
    isTerminalRoute p e = true ↔
      ∃ prev, p = some prev ∧ prev.operation = Operation.PUSH ∧
        e.operation = Operation.POP ∧ prev.name = e.name := by
  cases p with
  | none => simp [isTerminalRoute]
  | some prev =>
    constructor
    · intro h
      simp only [isTerminalRoute] at h
      split at h
      · next hc => exact ⟨prev, rfl, hc.1, hc.2, of_decide_eq_true h⟩
      · exact absurd h (by simp)
    · rintro ⟨prev2, hp, h1, h2, h3⟩
      have hpe : prev2 = prev := by injection hp with hp2; exact hp2.symm
      subst hpe
      simp only [isTerminalRoute, if_pos (And.intro h1 h2)]
      exact decide_eq_true h3

/-- C9 witness: a PUSH of x followed by a POP of x is terminal. -/
theorem isTerminalRoute_iff_witness :
    isTerminalRoute (some ({ operation := Operation.PUSH, name := strOf "x" } : Event))
        ({ operation := Operation.POP, name := strOf "x" } : Event) = true ↔
      ∃ prev : Event,
        some ({ operation := Operation.PUSH, name := strOf "x" } : Event) = some prev ∧
        prev.operation = Operation.PUSH ∧
        ({ operation := Operation.POP, name := strOf "x" } : Event).operation =
          Operation.POP ∧
        prev.name = ({ operation := Operation.POP, name := strOf "x" } : Event).name :=
  isTerminalRoute_iff (some ({ operation := Operation.PUSH, name := strOf "x" } : Event))
    ({ operation := Operation.POP, name := strOf "x" } : Event)

/-! ### Lemmas about `flattenDeep` -/

lemma leaves_arr {α : Type} (xs : List (Nested α)) :
    leaves (Nested.arr xs) = (xs.map leaves).flatten := by
  induction xs with
  | nil => simp [leaves]
  | cons y ys ih => simp [leaves, ih]

lemma flattenDeep_eq_aux {α : Type} :
    ∀ (n : Nat) (l : List (Nested α)), sizeOf l ≤ n →
      flattenDeep l = (l.map leaves).flatten := by
  intro n
  induction n with
  | zero =>
    intro l hl
    cases l with
    | nil => simp [flattenDeep]
    | cons x rest =>
      exfalso
      have hpos : 0 < sizeOf ((x :: rest : List (Nested α))) := by
        cases x <;> simp_arith
      omega
  | succ n ih =>
    intro l hl
    cases l with
    | nil => simp [flattenDeep]
    | cons x rest =>
      cases x with
      | leaf a =>
        have h1 : sizeOf rest ≤ n := by simp_arith at hl; omega
        simp [flattenDeep, leaves, ih rest h1]
      | arr xs =>
        have h1 : sizeOf rest ≤ n := by simp_arith at hl; omega
        have h2 : sizeOf xs ≤ n := by simp_arith at hl; omega
        simp [flattenDeep, leaves_arr, ih rest h1, ih xs h2]

/-- C10: `flattenDeep` returns the depth-first, left-to-right sequence of
leaves: it agrees with the declarative `leaves` on every item, so
non-array values pass through in order and empty arrays contribute
nothing; the documented example evaluates to [1, 2, 3, 4, 5]. -/
theorem flattenDeep_leaves {α : Type} (l : List (Nested α)) :
    flattenDeep l = (l.map leaves).flatten ∧
    flattenDeep [Nested.leaf 1,
        Nested.arr [Nested.leaf 2, Nested.arr [Nested.leaf 3, Nested.leaf 4],
          Nested.leaf 5],
        Nested.arr ([] : List (Nested Nat))] = [1, 2, 3, 4, 5] := by
  refine ⟨flattenDeep_eq_aux (sizeOf l) l (Nat.le_refl _), ?_⟩
  simp [flattenDeep]

/-! ### Round trip between `splitSlash` and `tokensToString` -/

lemma render_toToken (s : Str) :
    (if (toToken s).input then ':' :: (toToken s).text else (toToken s).text) = s := by
  cases s with
  | nil => simp [toToken]
  | cons c rest =>
    by_cases hc : c = ':'
    · simp [toToken, hc]
    · simp [toToken, hc]

lemma splitSlash_ne_nil (p : Str) : splitSlash p ≠ [] := by
  cases p with
  | nil => simp [splitSlash]
  | cons c rest =>
    by_cases hc : c = '/'
    · simp [splitSlash, hc]
    · simp only [splitSlash, if_neg hc]
      cases hs : splitSlash rest with
      | nil => simp
      | cons s ss => simp

lemma splitSlash_cons (p : Str) : ∃ s ss, splitSlash p = s :: ss := by
  cases hs : splitSlash p with
  | nil => exact absurd hs (splitSlash_ne_nil p)
  | cons s ss => exact ⟨s, ss, rfl⟩

lemma joinStr_splitSlash (p : Str) : joinStr (strOf "/") (splitSlash p) = p := by
  induction p with
  | nil => rfl
  | cons c rest ih =>
    by_cases hc : c = '/'
    · subst hc
      simp only [splitSlash, if_pos rfl]
      obtain ⟨s, ss, hss⟩ := splitSlash_cons rest
      rw [hss]
      rw [hss] at ih
      simp only [joinStr]
      rw [ih]
      rfl
    · simp only [splitSlash, if_neg hc]
      obtain ⟨s, ss, hss⟩ := splitSlash_cons rest
      rw [hss]
      rw [hss] at ih
      cases ss with
      | nil =>
        simp only [joinStr] at ih ⊢
        rw [ih]
      | cons s2 ss2 =>
        simp only [joinStr] at ih ⊢
        rw [← ih]
        simp

/-- C6: splitting a valid pattern on slashes, tokenizing each slice, and
rendering the tokens back reproduces the pattern exactly, the leading
empty slice restoring the leading slash. -/
theorem tokens_roundtrip (p : Str) (h : isValidPathForNamedRouteStr p = true) :
    tokensToString ((splitSlash p).map toToken) = p := by
  unfold tokensToString
  rw [List.map_map]
  have hid :
      ((fun token : Token => if token.input then ':' :: token.text else token.text) ∘
        toToken) = id := by
    funext s
    exact render_toToken s
  rw [hid, List.map_id]
  exact joinStr_splitSlash p

/-- C6 witness: the round trip at the valid pattern /foo/:bar. -/
theorem tokens_roundtrip_witness :
    tokensToString ((splitSlash (strOf "/foo/:bar")).map toToken) = strOf "/foo/:bar" :=
  tokens_roundtrip (strOf "/foo/:bar") (by decide)

/-! ### Correctness of the automaton for the validation regex -/

lemma isWordChar_ne_slash {c : Char} (h : isWordChar c = true) : c ≠ '/' := by
  intro hc
  subst hc
  exact absurd h (by decide)

lemma isWordChar_ne_colon {c : Char} (h : isWordChar c = true) : c ≠ ':' := by
  intro hc
  subst hc
  exact absurd h (by decide)

/-- Intended meaning of each automaton state, stated about the remaining
input: what the rest of the string must look like for the whole string to
lie in the regex language. -/
def stateSpec : MState → Str → Prop
  | MState.start, cs => MatchesPathRegex cs
  | MState.afterSlash, cs => MatchesPathRegex ('/' :: cs)
  | MState.afterColon, cs =>
      ∃ w rest, cs = w ++ rest ∧ IsWordSeg w ∧
        (rest = [] ∨ MatchesPathRegex rest)
  | MState.inWord, cs =>
      ∃ w rest, cs = w ++ rest ∧ (∀ c ∈ w, isWordChar c = true) ∧
        (rest = [] ∨ MatchesPathRegex rest)

lemma mpr_destruct {cs : Str} (h : MatchesPathRegex cs) :
    ∃ pre w rest, (pre = ([] : Str) ∨ pre = [':']) ∧ IsWordSeg w ∧
      (rest = ([] : Str) ∨ MatchesPathRegex rest) ∧
      cs = '/' :: (pre ++ (w ++ rest)) := by
  cases h with
  | single g hg =>
    obtain ⟨w, hws, hor⟩ := hg
    cases hor with
    | inl h1 => exact ⟨[], w, [], Or.inl rfl, hws, Or.inl rfl, by simp [h1]⟩
    | inr h2 => exact ⟨[':'], w, [], Or.inr rfl, hws, Or.inl rfl, by simp [h2]⟩
  | append g rest hg hrest =>
    obtain ⟨w, hws, hor⟩ := hg
    cases hor with
    | inl h1 => exact ⟨[], w, rest, Or.inl rfl, hws, Or.inr hrest, by simp [h1]⟩
    | inr h2 => exact ⟨[':'], w, rest, Or.inr rfl, hws, Or.inr hrest, by simp [h2]⟩

lemma runMatch_sound :
    ∀ (cs : Str) (s : MState), runMatch s cs = true → stateSpec s cs := by
  intro cs
  induction cs with
  | nil =>
    intro s h
    cases s with
    | start => exact absurd h (by decide)
    | afterSlash => exact absurd h (by decide)
    | afterColon => exact absurd h (by decide)
    | inWord =>
      refine ⟨[], [], rfl, ?_, Or.inl rfl⟩
      intro c hc
      exact absurd hc (List.not_mem_nil c)
  | cons c rest ih =>
    intro s h
    cases s with
    | start =>
      by_cases hc : c = '/'
      · subst hc
        have h2 : runMatch MState.afterSlash rest = true := by
          simpa [runMatch, mstep] using h
        exact ih MState.afterSlash h2
      · exact absurd h (by simp [runMatch, mstep, hc])
    | afterSlash =>
      by_cases hc : c = ':'
      · subst hc
        have h2 : runMatch MState.afterColon rest = true := by
          simpa [runMatch, mstep] using h
        obtain ⟨w, r, heq, hws, hr⟩ := ih MState.afterColon h2
        subst heq
        have hg : IsGroup ('/' :: ':' :: w) := ⟨w, hws, Or.inr rfl⟩
        show MatchesPathRegex ('/' :: ':' :: (w ++ r))
        cases hr with
        | inl h0 =>
          subst h0
          rw [List.append_nil]
          exact MatchesPathRegex.single _ hg
        | inr hm =>
          simpa using MatchesPathRegex.append _ r hg hm
      · by_cases hw : isWordChar c = true
        · have h2 : runMatch MState.inWord rest = true := by
            simpa [runMatch, mstep, hc, hw] using h
          obtain ⟨w, r, heq, hall, hr⟩ := ih MState.inWord h2
          subst heq
          have hcw : ∀ x ∈ c :: w, isWordChar x = true := by
            intro x hx
            rcases List.mem_cons.mp hx with h1 | h1
            · subst h1; exact hw
            · exact hall x h1
          have hg : IsGroup ('/' :: c :: w) :=
            ⟨c :: w, ⟨List.cons_ne_nil c w, hcw⟩, Or.inl rfl⟩
          show MatchesPathRegex ('/' :: c :: (w ++ r))
          cases hr with
          | inl h0 =>
            subst h0
            rw [List.append_nil]
            exact MatchesPathRegex.single _ hg
          | inr hm =>
            simpa using MatchesPathRegex.append _ r hg hm
        · exact absurd h (by simp [runMatch, mstep, hc, hw])
    | afterColon =>
      by_cases hw : isWordChar c = true
      · have h2 : runMatch MState.inWord rest = true := by
          simpa [runMatch, mstep, hw] using h
        obtain ⟨w, r, heq, hall, hr⟩ := ih MState.inWord h2
        subst heq
        have hcw : ∀ x ∈ c :: w, isWordChar x = true := by
          intro x hx
          rcases List.mem_cons.mp hx with h1 | h1
          · subst h1; exact hw
          · exact hall x h1
        exact ⟨c :: w, r, by simp, ⟨List.cons_ne_nil c w, hcw⟩, hr⟩
      · exact absurd h (by simp [runMatch, mstep, hw])
    | inWord =>
      by_cases hc : c = '/'
      · subst hc
        have h2 : runMatch MState.afterSlash rest = true := by
          simpa [runMatch, mstep] using h
        have hm := ih MState.afterSlash h2
        exact ⟨[], '/' :: rest, rfl, by simp, Or.inr hm⟩
      · by_cases hw : isWordChar c = true
        · have h2 : runMatch MState.inWord rest = true := by
            simpa [runMatch, mstep, hc, hw] using h
          obtain ⟨w, r, heq, hall, hr⟩ := ih MState.inWord h2
          subst heq
          have hcw : ∀ x ∈ c :: w, isWordChar x = true := by
            intro x hx
            rcases List.mem_cons.mp hx with h1 | h1
            · subst h1; exact hw
            · exact hall x h1
          exact ⟨c :: w, r, by simp, hcw, hr⟩
        · exact absurd h (by simp [runMatch, mstep, hc, hw])

lemma runMatch_complete :
    ∀ (cs : Str) (s : MState), stateSpec s cs → runMatch s cs = true := by
  intro cs
  induction cs with
  | nil =>
    intro s hs
    cases s with
    | start =>
      obtain ⟨pre, w, r, hpre, hws, hr, heq⟩ := mpr_destruct hs
      exact absurd heq (by simp)
    | afterSlash =>
      obtain ⟨pre, w, r, hpre, hws, hr, heq⟩ := mpr_destruct hs
      have h0 : pre ++ (w ++ r) = [] := ((List.cons.inj heq).2).symm
      rcases List.append_eq_nil.mp h0 with ⟨hp, hwr⟩
      rcases List.append_eq_nil.mp hwr with ⟨hw0, hr0⟩
      exact absurd hw0 hws.1
    | afterColon =>
      obtain ⟨w, r, heq, hws, hr⟩ := hs
      rcases List.append_eq_nil.mp heq.symm with ⟨hw0, hr0⟩
      exact absurd hw0 hws.1
    | inWord => decide
  | cons c rest ih =>
    intro s hs
    cases s with
    | start =>
      obtain ⟨pre, w, r, hpre, hws, hr, heq⟩ := mpr_destruct hs
      have hc : c = '/' := (List.cons.inj heq).1
      subst hc
      have hnext : runMatch MState.afterSlash rest = true :=
        ih MState.afterSlash hs
      simpa [runMatch, mstep] using hnext
    | afterSlash =>
      obtain ⟨pre, w, r, hpre, hws, hr, heq⟩ := mpr_destruct hs
      have h2 : c :: rest = pre ++ (w ++ r) := (List.cons.inj heq).2
      cases hpre with
      | inl hp =>
        subst hp
        rw [List.nil_append] at h2
        obtain ⟨d, w2, hw2⟩ := List.exists_cons_of_ne_nil hws.1
        subst hw2
        rw [List.cons_append] at h2
        obtain ⟨hcd, hrest⟩ := List.cons.inj h2
        subst hcd
        subst hrest
        have hw : isWordChar c = true := hws.2 c (List.mem_cons_self c w2)
        have hc2 : ¬ c = ':' := isWordChar_ne_colon hw
        have hnext : runMatch MState.inWord (w2 ++ r) = true :=
          ih MState.inWord
            ⟨w2, r, rfl, fun x hx => hws.2 x (List.mem_cons_of_mem c hx), hr⟩
        simpa [runMatch, mstep, hc2, hw] using hnext
      | inr hp =>
        subst hp
        rw [List.singleton_append] at h2
        obtain ⟨hc2, hrest⟩ := List.cons.inj h2
        subst hc2
        subst hrest
        have hnext : runMatch MState.afterColon (w ++ r) = true :=
          ih MState.afterColon ⟨w, r, rfl, hws, hr⟩
        simpa [runMatch, mstep] using hnext
    | afterColon =>
      obtain ⟨w, r, heq, hws, hr⟩ := hs
      obtain ⟨d, w2, hw2⟩ := List.exists_cons_of_ne_nil hws.1
      subst hw2
      rw [List.cons_append] at heq
      obtain ⟨hcd, hrest⟩ := List.cons.inj heq
      subst hcd
      subst hrest
      have hw : isWordChar c = true := hws.2 c (List.mem_cons_self c w2)
      have hnext : runMatch MState.inWord (w2 ++ r) = true :=
        ih MState.inWord
          ⟨w2, r, rfl, fun x hx => hws.2 x (List.mem_cons_of_mem c hx), hr⟩
      simpa [runMatch, mstep, hw] using hnext
    | inWord =>
      obtain ⟨w, r, heq, hall, hr⟩ := hs
      cases w with
      | nil =>
        rw [List.nil_append] at heq
        subst heq
        cases hr with
        | inl h0 => exact absurd h0 (List.cons_ne_nil c rest)
        | inr hm =>
          obtain ⟨pre, w2, r2, hpre, hws2, hr2, heq2⟩ := mpr_destruct hm
          have hc : c = '/' := (List.cons.inj heq2).1
          subst hc
          have hnext : runMatch MState.afterSlash rest = true :=
            ih MState.afterSlash hm
          simpa [runMatch, mstep] using hnext
      | cons d w2 =>
        rw [List.cons_append] at heq
        obtain ⟨hcd, hrest⟩ := List.cons.inj heq
        subst hcd
        subst hrest
        have hw : isWordChar c = true := hall c (List.mem_cons_self c w2)
        have hc2 : ¬ c = '/' := isWordChar_ne_slash hw
        have hnext : runMatch MState.inWord (w2 ++ r) = true :=
          ih MState.inWord
            ⟨w2, r, rfl, fun x hx => hall x (List.mem_cons_of_mem c hx), hr⟩
        simpa [runMatch, mstep, hc2, hw] using hnext

/-- The automaton decides the language of the validation regex. -/
lemma matchPath_iff (cs : Str) : matchPath cs = true ↔ MatchesPathRegex cs :=
  ⟨fun h => runMatch_sound cs MState.start h,
   fun h => runMatch_complete cs MState.start h⟩

lemma mpr_append {p q : Str} (hp : MatchesPathRegex p) (hq : MatchesPathRegex q) :
    MatchesPathRegex (p ++ q) := by
  induction hp with
  | single g hg => exact MatchesPathRegex.append g q hg hq
  | append g rest hg hrest ih =>
    rw [List.append_assoc]
    exact MatchesPathRegex.append g (rest ++ q) hg ih

lemma mpr_flatten : ∀ (l : List Str), l ≠ [] →
    (∀ p ∈ l, MatchesPathRegex p) → MatchesPathRegex l.flatten := by
  intro l
  induction l with
  | nil => intro h; exact absurd rfl h
  | cons x xs ih =>
    intro _ hall
    cases xs with
    | nil => simpa using hall x (by simp)
    | cons y ys =>
      rw [List.flatten_cons]
      exact mpr_append (hall x (by simp))
        (ih (by simp) fun p hp => hall p (List.mem_cons_of_mem x hp))

/-- C7: when every fragment of the hierarchy is the bare root "/" or is
itself a valid path, the joined path built by `buildPath` is valid. -/
theorem buildPath_valid (ph : List Str)
    (h : ∀ frag ∈ ph, frag = strOf "/" ∨ isValidPathForNamedRouteStr frag = true) :
    isValidPathForNamedRouteStr (buildPath ph) = true := by
  rw [buildPath_eq]
  by_cases hf : ph.filter (fun f => decide (f ≠ strOf "/")) = []
  · rw [if_pos hf]
    decide
  · rw [if_neg hf]
    have hall : ∀ p ∈ ph.filter (fun f => decide (f ≠ strOf "/")),
        MatchesPathRegex p := by
      intro p hp
      rw [List.mem_filter] at hp
      obtain ⟨hmem, hne⟩ := hp
      have hne2 : p ≠ strOf "/" := by simpa using hne
      rcases h p hmem with h1 | h1
      · exact absurd h1 hne2
      · rw [isValidPathForNamedRouteStr, if_neg hne2] at h1
        exact (matchPath_iff p).mp h1
    have hm := mpr_flatten _ hf hall
    rw [isValidPathForNamedRouteStr]
    by_cases hroot : (ph.filter (fun f => decide (f ≠ strOf "/"))).flatten = strOf "/"
    · rw [if_pos hroot]
    · rw [if_neg hroot]
      exact (matchPath_iff _).mpr hm

/-- C7 witness: a well-formed hierarchy with a root fragment in the middle
joins to a valid path. -/
theorem buildPath_valid_witness :
    isValidPathForNamedRouteStr
      (buildPath [strOf "/foo", strOf "/", strOf "/:bar"]) = true :=
  buildPath_valid [strOf "/foo", strOf "/", strOf "/:bar"] (by decide)

/-- C8: `isValidPathForNamedRoute` answers true exactly on the string "/"
and on the strings of the regex language, and answers false, without
failing, on every other input: other strings, among them the empty string
and strings with adjacent slashes, and every non-string value. -/
theorem isValidPath_characterization (x : JsValue) :
    (isValidPathForNamedRoute x = true ↔
      ∃ s, x = JsValue.str s ∧ (s = strOf "/" ∨ MatchesPathRegex s)) ∧
    isValidPathForNamedRoute (JsValue.str (strOf "/")) = true ∧
    isValidPathForNamedRoute (JsValue.str (strOf "/foo/:bar")) = true ∧
    isValidPathForNamedRoute (JsValue.str (strOf "/foo//bar")) = false ∧
    isValidPathForNamedRoute (JsValue.str (strOf "")) = false ∧
    isValidPathForNamedRoute JsValue.undefined = false ∧
    isValidPathForNamedRoute (JsValue.num 5) = false ∧
    isValidPathForNamedRoute (JsValue.bool true) = false ∧
    isValidPathForNamedRoute JsValue.null = false := by
  refine ⟨?_, by decide, by decide, by decide, by decide, by decide, by decide,
    by decide, by decide⟩
  cases x with
  | str s =>
    simp only [isValidPathForNamedRoute]
    constructor
    · intro h
      refine ⟨s, rfl, ?_⟩
      by_cases hs : s = strOf "/"
      · exact Or.inl hs
      · right
        rw [isValidPathForNamedRouteStr, if_neg hs] at h
        exact (matchPath_iff s).mp h
    · rintro ⟨s2, hs2, hor⟩
      have hss : s2 = s := by injection hs2 with h1; exact h1.symm
      subst hss
      cases hor with
      | inl h1 => rw [isValidPathForNamedRouteStr, if_pos h1]
      | inr h2 =>
        rw [isValidPathForNamedRouteStr]
        by_cases hs : s2 = strOf "/"
        · rw [if_pos hs]
        · rw [if_neg hs]
          exact (matchPath_iff s2).mpr h2
  | num n => simp [isValidPathForNamedRoute]
  | bool b => simp [isValidPathForNamedRoute]
  | undefined => simp [isValidPathForNamedRoute]
  | null => simp [isValidPathForNamedRoute]

end RouteLabel
